import Mathlib

/-!
Verification of the ledger reconciliation engine of
Analyze-Expenses-with-StreamLit (src/inputToOutput.py).

The embedding models the Python records as structures, Python dicts as
association lists with insert-overwrite semantics (`dinsert`), and the
monetary floating-point arithmetic exactly over ℚ (every reachable value is
an integer number of cents divided by 100, where float and rational
arithmetic agree).  The `KeyError` that `build_transaction_list` can raise
on the transfer path (direct indexing `account_map[...]`) is modelled with
`Except String`.  Python's stable `sorted` is modelled by the stable
insertion sort `sortByKey`.
-/

namespace AnalyzeExpenses

/-- Lower-casing a string character by character (Python's str.lower on the
ASCII titles that occur here). -/
def strLower (s : String) : String := String.mk (s.data.map Char.toLower)

/-- Bool test: does the list n occur as a contiguous sublist of l?
(Python's substring operator needle in hay, on the underlying chars.) -/
def listHasSub [BEq α] (n : List α) : List α → Bool
  | [] => n.isEmpty
  | a :: rest => n.isPrefixOf (a :: rest) || listHasSub n (rest)

/-- Python substring test needle in hay. -/
def containsStr (needle hay : String) : Bool := listHasSub needle.data hay.data

/-- Round a rational to 2 decimal places (Python round(x, 2)).  Python uses
banker's rounding on floats; every value this program rounds is an exact
multiple of 1/100, where all tie-breaking rules agree and rounding is the
identity, so modelling with round-half-up on ℚ is exact. -/
def round2 (q : ℚ) : ℚ := (round (q * 100) : ℤ) / 100

/-- A row of account.json used by the engine. -/
structure Account where
  uid : String
  title : String
  initialBalance : Option Int
  ignoreInBalance : Bool
  isRemoved : Bool
deriving DecidableEq

/-- A row of category.json used by the engine. -/
structure Category where
  uid : String
  title : String
deriving DecidableEq

/-- A row of transaction.json used by the engine. -/
structure RawTransaction where
  uid : String
  type : String
  date : String
  amountInDefaultCurrency : Option Int
  isRemoved : Bool
deriving DecidableEq

/-- A row of transfer.json used by the engine. -/
structure RawTransfer where
  uid : String
  date : String
  fromAmount : Option Int
  isRemoved : Bool
deriving DecidableEq

/-- A row of sync_link.json: a generic entity link. -/
structure SyncLink where
  entityUid : String
  otherType : Option String
  otherUid : String
deriving DecidableEq

/-- The Transaction output class of inputToOutput.py (a ledger entry). -/
structure Transaction where
  type : String
  date : String
  value : ℚ
  account : String := ""
  category : String := ""
  from_account : String := ""
  to_account : String := ""
deriving DecidableEq

/-- One row of the account balance summary ({"title": ..., "balance": ...}). -/
structure Summary where
  title : String
  balance : ℚ
deriving DecidableEq

/-! ## Python dicts as association lists

A dict comprehension iterates the source and overwrites on key collision
(so the LAST item with a given key wins); an existing key keeps its
position, a fresh key is appended. -/

/-- Insert with Python dict semantics: overwrite in place or append. -/
def dinsert (l : List (String × α)) (k : String) (v : α) : List (String × α) :=
  match l with
  | [] => [(k, v)]
  | (k1, v1) :: rest => if k1 = k then (k1, v) :: rest else (k1, v1) :: dinsert rest k v

/-- Python dict lookup (d.get(k)). -/
def dlookup (l : List (String × α)) (k : String) : Option α :=
  match l with
  | [] => none
  | (k1, v1) :: rest => if k1 = k then some v1 else dlookup rest k

/-- Python membership test k in d. -/
def containsKey (l : List (String × α)) (k : String) : Bool :=
  l.any (fun p => p.1 = k)

/-- A dict comprehension {key x: x for x in xs}. -/
def dictOf (key : α → String) (xs : List α) : List (String × α) :=
  xs.foldl (fun d a => dinsert d (key a) a) []

/-! ## Stable sort by key (Python sorted(xs, key=...)) -/

/-- Insert x into l, after every element whose key is strictly below x's key;
this is the insertion step of a stable ascending insertion sort. -/
def insertByKey [LinearOrder K] (key : α → K) (x : α) : List α → List α
  | [] => [x]
  | y :: ys => if key y < key x then y :: insertByKey key x ys else x :: y :: ys

/-- Stable ascending insertion sort by key: the unique stable sort, hence the
model of Python's sorted(xs, key=...). -/
def sortByKey [LinearOrder K] (key : α → K) : List α → List α
  | [] => []
  | x :: xs => insertByKey key x (sortByKey key xs)

/-- Insert x into l, after every element whose key is strictly above x's key;
the insertion step of a stable descending insertion sort. -/
def insertDescBy [LinearOrder K] (key : α → K) (x : α) : List α → List α
  | [] => [x]
  | y :: ys => if key x < key y then y :: insertDescBy key x ys else x :: y :: ys

/-- Stable descending insertion sort by key: the model of Python's
sorted(xs, key=..., reverse=True). -/
def sortDescBy [LinearOrder K] (key : α → K) : List α → List α
  | [] => []
  | x :: xs => insertDescBy key x (sortDescBy key xs)

/-! ## build_transaction_list (inputToOutput.py lines 96-157) -/

/-- One of the four role maps of sync_maps: the dict comprehension
{s[entityUid]: s for s in sync_link if s.get(otherType) == role}. -/
def syncMapFor (role : String) (sync_link : List SyncLink) : List (String × SyncLink) :=
  dictOf SyncLink.entityUid (sync_link.filter (fun s => s.otherType = some role))

/-- category_map.get(sync_maps[Category].get(tid, \x7b\x7d).get(otherUid)):
the transaction's category record, or none (the empty dict) when either hop
is missing. -/
def resolveCategory (syncCat : List (String × SyncLink)) (catMap : List (String × Category))
    (tid : String) : Option Category :=
  match dlookup syncCat tid with
  | none => none
  | some s => dlookup catMap s.otherUid

/-- The body of the transaction loop of build_transaction_list (lines
114-141): zero or one ledger entry per raw transaction. -/
def processTransaction (syncAcc syncCat : List (String × SyncLink))
    (accMap : List (String × Account)) (catMap : List (String × Category))
    (t : RawTransaction) : Option Transaction :=
  if t.isRemoved then none
  else
    let categoryData := resolveCategory syncCat catMap t.uid
    if containsStr "giroconto" (strLower (((categoryData.map Category.title)).getD "")) then
      none
    else
      match dlookup syncAcc t.uid with
      | none => none
      | some accSync =>
        match dlookup accMap accSync.otherUid with
        | none => none
        | some acc =>
          if acc.ignoreInBalance then none
          else
            some { type := if t.type = "Expense" then "Spesa" else "Entrata"
                   date := t.date
                   value := ((t.amountInDefaultCurrency.getD 0 : ℤ) : ℚ) / 100
                   account := acc.title
                   category := ((categoryData.map Category.title)).getD "Regolazione saldo" }

/-- The body of the transfer loop of build_transaction_list (lines 143-155).
A missing endpoint LINK skips the transfer; a link whose account uid is not a
key of account_map raises KeyError (account_map[...] is indexed directly),
modelled as Except.error. -/
def processTransfer (syncFrom syncTo : List (String × SyncLink))
    (accMap : List (String × Account)) (tr : RawTransfer) :
    Except String (Option Transaction) :=
  if tr.isRemoved then .ok none
  else
    match dlookup syncFrom tr.uid, dlookup syncTo tr.uid with
    | some fs, some ts =>
      match dlookup accMap fs.otherUid, dlookup accMap ts.otherUid with
      | some fa, some ta =>
        .ok (some { type := "Giroconto"
                    date := tr.date
                    value := ((tr.fromAmount.getD 0 : ℤ) : ℚ) / 100
                    from_account := fa.title
                    to_account := ta.title })
      | _, _ => .error "KeyError"
    | _, _ => .ok none

/-- The whole transfer loop, collecting entries in order and propagating the
first KeyError. -/
def processTransfers (syncFrom syncTo : List (String × SyncLink))
    (accMap : List (String × Account)) : List RawTransfer → Except String (List Transaction)
  | [] => .ok []
  | tr :: rest =>
    match processTransfer syncFrom syncTo accMap tr with
    | .error e => .error e
    | .ok none => processTransfers syncFrom syncTo accMap rest
    | .ok (some x) =>
      match processTransfers syncFrom syncTo accMap rest with
      | .error e => .error e
      | .ok l => .ok (x :: l)

/-- build_transaction_list before its final sort: the transaction-derived
entries (collection order) followed by the transfer-derived entries
(collection order). -/
def unsortedEntries (account : List Account) (transaction : List RawTransaction)
    (transfer : List RawTransfer) (sync_link : List SyncLink) (category : List Category) :
    Except String (List Transaction) :=
  let category_map := dictOf Category.uid category
  let account_map := dictOf Account.uid account
  let syncAcc := syncMapFor "Account" sync_link
  let syncCat := syncMapFor "Category" sync_link
  let syncFrom := syncMapFor "FromAccount" sync_link
  let syncTo := syncMapFor "ToAccount" sync_link
  let txEntries := transaction.filterMap (processTransaction syncAcc syncCat account_map category_map)
  (processTransfers syncFrom syncTo account_map transfer).map (fun trEntries => txEntries ++ trEntries)

/-- build_transaction_list (lines 96-157): the normalized ledger, stably
sorted ascending by date (ISO date strings compare lexicographically). -/
def build_transaction_list (account : List Account) (transaction : List RawTransaction)
    (transfer : List RawTransfer) (sync_link : List SyncLink) (category : List Category) :
    Except String (List Transaction) :=
  (unsortedEntries account transaction transfer sync_link category).map
    (sortByKey Transaction.date)

/-! ## calculate_account_balances (inputToOutput.py lines 171-237) -/

/-- True for accounts with neither the ignore-in-balance nor the removed
flag set (the retained accounts). -/
def retainedB (a : Account) : Bool := !a.ignoreInBalance && !a.isRemoved

/-- account_map_by_title: title-keyed dict over the retained accounts. -/
def accountMapByTitle (account : List Account) : List (String × Account) :=
  dictOf Account.title (account.filter retainedB)

/-- account_map_by_uid: uid-keyed dict over the retained accounts. -/
def accountMapByUid (account : List Account) : List (String × Account) :=
  dictOf Account.uid (account.filter retainedB)

/-- The balances dict seeded with initialBalance/100 per retained uid. -/
def initBalances (account : List Account) : List (String × ℚ) :=
  (accountMapByUid account).map (fun p => (p.1, ((p.2.initialBalance.getD 0 : ℤ) : ℚ) / 100))

/-- balances[k] += v (no-op on keys that are absent; the caller guards with
containsKey exactly as the Python code does with in balances). -/
def addAt (l : List (String × ℚ)) (k : String) (v : ℚ) : List (String × ℚ) :=
  l.map (fun p => if p.1 = k then (p.1, p.2 + v) else p)

/-- The body of the reduction loop of calculate_account_balances (lines
186-201), applied to one ledger entry. -/
def applyEntry (byTitle : List (String × Account)) (bal : List (String × ℚ))
    (t : Transaction) : List (String × ℚ) :=
  if t.type = "Entrata" then
    match dlookup byTitle t.account with
    | some acc => if containsKey bal acc.uid then addAt bal acc.uid t.value else bal
    | none => bal
  else if t.type = "Spesa" then
    match dlookup byTitle t.account with
    | some acc => if containsKey bal acc.uid then addAt bal acc.uid (-t.value) else bal
    | none => bal
  else if t.type = "Giroconto" then
    let bal1 :=
      match dlookup byTitle t.from_account with
      | some fa => if containsKey bal fa.uid then addAt bal fa.uid (-t.value) else bal
      | none => bal
    match dlookup byTitle t.to_account with
    | some ta => if containsKey bal1 ta.uid then addAt bal1 ta.uid t.value else bal1
    | none => bal1
  else bal

/-- The balances dict after replaying the whole ledger (lines 174-201). -/
def replayBalances (account : List Account) (txs : List Transaction) : List (String × ℚ) :=
  txs.foldl (applyEntry (accountMapByTitle account)) (initBalances account)

/-- output_data (lines 204-207): one {title, round(balance, 2)} row per
balances entry.  The Python code indexes account_map_by_uid[uid] directly;
every key of the balances dict is a key of that map, so the filterMap drops
nothing on any reachable state. -/
def formatOutput (account : List Account) (bal : List (String × ℚ)) : List Summary :=
  bal.filterMap (fun p =>
    (dlookup (accountMapByUid account) p.1).map (fun a => ⟨a.title, round2 p.2⟩))

/-- The manual correction applied to one summary row (lines 211-217): +219.50
with rounding on titles containing Intesa, then -219.50 with rounding on the
title Contanti. -/
def fixOne (e : Summary) : Summary :=
  let b1 := if containsStr "Intesa" e.title then round2 (e.balance + 219.5) else e.balance
  let b2 := if e.title = "Contanti" then round2 (b1 - 219.5) else b1
  ⟨e.title, b2⟩

/-- The manual-correction loop over output_data. -/
def applyFix (out : List Summary) : List Summary := out.map fixOne

/-- any(ETF in a[title] for a in account): takes the FULL account list,
removed/ignored accounts included. -/
def hasEtfAccounts (account : List Account) : Bool :=
  account.any (fun a => containsStr "ETF" a.title)

/-- The ETF grouping (lines 220-235): drop every row whose title contains
ETF, and when hasEtfAccounts, append one synthetic row ETF holding the
rounded sum of the dropped rows' balances. -/
def etfStep (account : List Account) (out : List Summary) : List Summary :=
  let etf_total := ((out.filter (fun e => containsStr "ETF" e.title)).map Summary.balance).sum
  let rest := out.filter (fun e => !containsStr "ETF" e.title)
  if hasEtfAccounts account then rest ++ [⟨"ETF", round2 etf_total⟩] else rest

/-- calculate_account_balances (lines 171-237): replay, format, manual fix,
ETF grouping, then a stable descending sort by balance
(sorted(..., reverse=True)). -/
def calculate_account_balances (account : List Account) (txs : List Transaction) :
    List Summary :=
  sortDescBy Summary.balance
    (etfStep account (applyFix (formatOutput account (replayBalances account txs))))

/-! ## Helper notions for the statements and proofs -/

/-- The sum of the values of a balances dict. -/
def sumVals (l : List (String × ℚ)) : ℚ := (l.map Prod.snd).sum

/-- The net effect of one ledger entry on the total of all balances, when
both of a transfer's endpoints resolve. -/
def entryDelta (t : Transaction) : ℚ :=
  if t.type = "Entrata" then t.value else if t.type = "Spesa" then -t.value else 0

/-- A rational that is an exact number of cents.  Every monetary value the
program ever builds is one, which is why its float rounding is exact. -/
def isCent (q : ℚ) : Prop := ∃ k : ℤ, q = (k : ℚ) / 100

/-- A ledger entry whose account titles all belong to the retained accounts
of A; every entry built from a dataset with no removed/ignored accounts is
well formed in this sense. -/
def wfEntry (A : List Account) (t : Transaction) : Prop :=
  (t.type = "Entrata" ∨ t.type = "Spesa" → ∃ a ∈ A.filter retainedB, a.title = t.account) ∧
  (t.type = "Giroconto" →
    (∃ a ∈ A.filter retainedB, a.title = t.from_account) ∧
    (∃ a ∈ A.filter retainedB, a.title = t.to_account))

/-! ## Concrete inputs used by witnesses and counterexamples -/

/-- A transaction whose category resolves to a giroconto-marked title. -/
def w1T : RawTransaction := ⟨"t1", "Expense", "2024-01-01", some 1000, false⟩

/-- The giroconto-marked category of w1T. -/
def w1Cat : Category := ⟨"c1", "GiRoConto interno"⟩

/-- The category link of w1T. -/
def w1LinkC : SyncLink := ⟨"t1", some "Category", "c1"⟩

/-- A transfer with no endpoint links at all. -/
def w2Tr : RawTransfer := ⟨"tr1", "2024-01-03", some 500, false⟩

/-- A transfer both of whose endpoint links point at account uids that are
not keys of the account collection. -/
def cexTr : RawTransfer := ⟨"tr2", "2024-01-03", some 500, false⟩

/-- cexTr's FromAccount link, dangling. -/
def cexFrom : SyncLink := ⟨"tr2", some "FromAccount", "ghost"⟩

/-- cexTr's ToAccount link, dangling. -/
def cexTo : SyncLink := ⟨"tr2", some "ToAccount", "ghost2"⟩

/-- A retained account with an initial balance of 10000 cents. -/
def c3Acc : Account := ⟨"a1", "Conto", some 10000, false, false⟩

/-- An ordinary income category. -/
def c3Cat : Category := ⟨"c1", "Stipendio"⟩

/-- Account link of the income transaction c3T. -/
def c3LinkA : SyncLink := ⟨"t1", some "Account", "a1"⟩

/-- Category link of the income transaction c3T. -/
def c3LinkC : SyncLink := ⟨"t1", some "Category", "c1"⟩

/-- An income of 5000 cents on c3Acc. -/
def c3T : RawTransaction := ⟨"t1", "Income", "2024-01-05", some 5000, false⟩

/-- The ledger entry build_transaction_list produces from c3T (value
5000 cents = 50.00, written unreduced so the kernel can check the
construction by rfl). -/
def c3Entry : Transaction :=
  ⟨"Entrata", "2024-01-05", ((5000 : ℤ) : ℚ) / 100, "Conto", "Stipendio", "", ""⟩

/-- An account that is removed but NOT ignore-in-balance. -/
def c5Acc : Account := ⟨"a1", "Conto rimosso", some 1000, false, true⟩

/-- Account link of c5T, resolving to the removed account c5Acc. -/
def c5Link : SyncLink := ⟨"t1", some "Account", "a1"⟩

/-- A live transaction whose resolved account is the removed c5Acc. -/
def c5T : RawTransaction := ⟨"t1", "Expense", "2024-01-01", some 500, false⟩

/-- An account with the ignore-in-balance flag set. -/
def c5wAcc : Account := ⟨"a2", "Conto ignorato", some 0, true, false⟩

/-- Account link of c5wT, resolving to the ignored account c5wAcc. -/
def c5wLink : SyncLink := ⟨"t2", some "Account", "a2"⟩

/-- A live transaction whose resolved account is the ignored c5wAcc. -/
def c5wT : RawTransaction := ⟨"t2", "Expense", "2024-01-01", some 500, false⟩

/-- Two links sharing entityUid and role but naming different accounts. -/
def c6l1 : SyncLink := ⟨"e1", some "Account", "u1"⟩

/-- The later of the two duplicate links. -/
def c6l2 : SyncLink := ⟨"e1", some "Account", "u2"⟩

/-- A retained account receiving the negative-amount transaction c7T. -/
def c7Acc : Account := ⟨"a1", "Conto", some 0, false, false⟩

/-- Account link of c7T. -/
def c7Link : SyncLink := ⟨"t1", some "Account", "a1"⟩

/-- A live income transaction with a NEGATIVE stored amount. -/
def c7T : RawTransaction := ⟨"t1", "Income", "2024-01-01", some (-500), false⟩

/-- The negative-valued ledger entry build_transaction_list emits for c7T
(-500 cents = -5.00, written unreduced for kernel rfl checking). -/
def c7Entry : Transaction :=
  ⟨"Entrata", "2024-01-01", ((-500 : ℤ) : ℚ) / 100, "Conto", "Regolazione saldo", "", ""⟩

/-- An account whose title contains ETF. -/
def c8AccE : Account := ⟨"u1", "ETF-A", some 10000, false, false⟩

/-- An account whose title does not contain ETF. -/
def c8AccC : Account := ⟨"u2", "Cash", some 2000, false, false⟩

/-- Account titled with the Intesa marker, initial balance 1000.00. -/
def c9AccI : Account := ⟨"a1", "Intesa San Paolo", some 100000, false, false⟩

/-- The cash account Contanti, initial balance 500.00. -/
def c9AccC : Account := ⟨"a2", "Contanti", some 50000, false, false⟩

/-- First of two retained accounts sharing the title Conto. -/
def c10Acc1 : Account := ⟨"u1", "Conto", some 1000, false, false⟩

/-- Second (hence winning) of two retained accounts sharing the title Conto. -/
def c10Acc2 : Account := ⟨"u2", "Conto", some 2000, false, false⟩

/-- An income ledger entry on the duplicated title Conto. -/
def c10T : Transaction := ⟨"Entrata", "2024-01-01", 5, "Conto", "Stipendio", "", ""⟩

/-! ## Dictionary lemmas -/

theorem dlookup_dinsert (l : List (String × α)) (k k1 : String) (v : α) :
    dlookup (dinsert l k v) k1 = if k = k1 then some v else dlookup l k1 := by
  induction l with
  | nil => simp [dinsert, dlookup]
  | cons p rest ih =>
    obtain ⟨k0, v0⟩ := p
    by_cases h0 : k0 = k
    · subst h0
      simp only [dinsert, if_pos rfl, dlookup]
      by_cases h1 : k0 = k1 <;> simp [h1]
    · simp only [dinsert, if_neg h0, dlookup]
      by_cases h1 : k0 = k1
      · subst h1
        have hk : ¬ k = k0 := fun he => h0 he.symm
        simp [hk]
      · simp [if_neg h1, ih]

theorem mem_of_getLast? : ∀ {l : List α} {a : α}, l.getLast? = some a → a ∈ l
  | [x], a, h => by
    rw [List.getLast?_singleton] at h
    simp [Option.some_inj.mp h]
  | x :: y :: rest, a, h => by
    rw [List.getLast?_cons_cons] at h
    exact List.mem_cons_of_mem x (mem_of_getLast? h)

theorem dlookup_foldl_dinsert (key : α → String) (xs : List α) (d : List (String × α))
    (k : String) :
    dlookup (xs.foldl (fun d a => dinsert d (key a) a) d) k =
      ((xs.filter (fun a => key a == k)).getLast?).or (dlookup d k) := by
  induction xs generalizing d with
  | nil => simp
  | cons a rest ih =>
    rw [List.foldl_cons, ih, List.filter_cons]
    by_cases hp : key a = k
    · simp only [hp, beq_self_eq_true, if_pos]
      rcases hrest : (rest.filter (fun a => key a == k)) with _ | ⟨b, l2⟩
      · simp [List.getLast?_singleton, dlookup_dinsert, hp]
      · have hne : (b :: l2).getLast?.isSome = true := List.getLast?_isSome.mpr (by simp)
        rw [List.getLast?_cons_cons]
        obtain ⟨c, hc⟩ := Option.isSome_iff_exists.mp hne
        simp [hc]
    · have hb : (key a == k) = false := by simp [hp]
      simp only [hb, Bool.false_eq_true, if_neg, if_false]
      rw [dlookup_dinsert]
      simp [hp]

theorem dlookup_dictOf (key : α → String) (xs : List α) (k : String) :
    dlookup (dictOf key xs) k = (xs.filter (fun a => key a == k)).getLast? := by
  rw [dictOf, dlookup_foldl_dinsert]
  simp [dlookup]

theorem dlookup_dictOf_some (key : α → String) (xs : List α) (k : String) (b : α)
    (h : dlookup (dictOf key xs) k = some b) : b ∈ xs ∧ key b = k := by
  rw [dlookup_dictOf] at h
  have hmem := mem_of_getLast? h
  rw [List.mem_filter] at hmem
  exact ⟨hmem.1, by simpa using hmem.2⟩

theorem dlookup_dictOf_isSome (key : α → String) (xs : List α) (a : α) (ha : a ∈ xs) :
    ∃ b, dlookup (dictOf key xs) (key a) = some b ∧ b ∈ xs ∧ key b = key a := by
  rw [dlookup_dictOf]
  have hne : xs.filter (fun x => key x == key a) ≠ [] := by
    intro hnil
    rw [List.filter_eq_nil_iff] at hnil
    exact hnil a ha (by simp)
  obtain ⟨b, hb⟩ := Option.isSome_iff_exists.mp (List.getLast?_isSome.mpr hne)
  refine ⟨b, hb, ?_⟩
  have hmem := mem_of_getLast? hb
  rw [List.mem_filter] at hmem
  exact ⟨hmem.1, by simpa using hmem.2⟩

theorem containsKey_iff (l : List (String × α)) (k : String) :
    containsKey l k = true ↔ k ∈ l.map Prod.fst := by
  simp only [containsKey, List.any_eq_true, List.mem_map]
  constructor
  · rintro ⟨p, hp, he⟩
    exact ⟨p, hp, by simpa using (by simpa using he : p.1 = k)⟩
  · rintro ⟨p, hp, he⟩
    exact ⟨p, hp, by simp [he]⟩

theorem dlookup_isSome_iff (l : List (String × α)) (k : String) :
    (dlookup l k).isSome = true ↔ k ∈ l.map Prod.fst := by
  induction l with
  | nil => simp [dlookup]
  | cons p rest ih =>
    obtain ⟨k0, v0⟩ := p
    by_cases h : k0 = k
    · subst h; simp [dlookup]
    · have hk : ¬ k = k0 := fun he => h he.symm
      simp [dlookup, if_neg h, ih, hk]

theorem dinsert_of_not_contains (l : List (String × α)) (k : String) (v : α)
    (h : containsKey l k = false) : dinsert l k v = l ++ [(k, v)] := by
  induction l with
  | nil => simp [dinsert]
  | cons p rest ih =>
    obtain ⟨k0, v0⟩ := p
    simp only [containsKey, List.any_cons, Bool.or_eq_false_iff] at h
    have h0 : ¬ k0 = k := by simpa using h.1
    simp only [dinsert, if_neg h0, List.cons_append, List.cons.injEq, true_and]
    exact ih (by simpa [containsKey] using h.2)

theorem containsKey_append (l1 l2 : List (String × α)) (k : String) :
    containsKey (l1 ++ l2) k = (containsKey l1 k || containsKey l2 k) := by
  simp [containsKey, List.any_append]

theorem foldl_dinsert_fresh (key : α → String) (xs : List α) (d : List (String × α))
    (hfresh : ∀ a ∈ xs, containsKey d (key a) = false)
    (hnd : (xs.map key).Nodup) :
    xs.foldl (fun d a => dinsert d (key a) a) d = d ++ xs.map (fun a => (key a, a)) := by
  induction xs generalizing d with
  | nil => simp
  | cons a rest ih =>
    rw [List.map_cons, List.nodup_cons] at hnd
    rw [List.foldl_cons, dinsert_of_not_contains d (key a) a (hfresh a (by simp))]
    rw [ih (d ++ [(key a, a)])]
    · simp
    · intro b hb
      rw [containsKey_append, Bool.or_eq_false_iff]
      refine ⟨hfresh b (by simp [hb]), ?_⟩
      have : ¬ key a = key b := by
        intro he
        exact hnd.1 (he ▸ List.mem_map_of_mem key hb)
      simp [containsKey, this]
    · exact hnd.2

theorem dictOf_eq_map (key : α → String) (xs : List α) (hnd : (xs.map key).Nodup) :
    dictOf key xs = xs.map (fun a => (key a, a)) := by
  rw [dictOf, foldl_dinsert_fresh key xs [] (by simp [containsKey]) hnd]
  simp

theorem dlookup_map_pair (key : α → String) (val : α → β) (xs : List α)
    (hnd : (xs.map key).Nodup) (a : α) (ha : a ∈ xs) :
    dlookup (xs.map (fun x => (key x, val x))) (key a) = some (val a) := by
  induction xs with
  | nil => cases ha
  | cons b rest ih =>
    rw [List.map_cons, List.nodup_cons] at hnd
    rw [List.mem_cons] at ha
    rcases ha with rfl | ha
    · simp [dlookup]
    · have hne : ¬ key b = key a := by
        intro he
        exact hnd.1 (he ▸ List.mem_map_of_mem key ha)
      simp only [List.map_cons, dlookup, if_neg hne]
      exact ih hnd.2 ha

theorem dlookup_map_value (g : α → β) (l : List (String × α)) (k : String) :
    dlookup (l.map (fun p => (p.1, g p.2))) k = (dlookup l k).map g := by
  induction l with
  | nil => simp [dlookup]
  | cons p rest ih =>
    by_cases h : p.1 = k
    · simp [dlookup, h]
    · simp [dlookup, if_neg h, ih]

theorem dlookup_initBalances (l : List (String × Account)) (k : String) :
    dlookup (l.map (fun p => (p.1, ((p.2.initialBalance.getD 0 : ℤ) : ℚ) / 100))) k =
      (dlookup l k).map (fun a => ((a.initialBalance.getD 0 : ℤ) : ℚ) / 100) := by
  induction l with
  | nil => simp [dlookup]
  | cons p rest ih =>
    by_cases h : p.1 = k
    · simp [dlookup, h]
    · simp [dlookup, if_neg h, ih]

/-! ## Stable sort lemmas -/

theorem insertByKey_perm [LinearOrder K] (key : α → K) (x : α) (l : List α) :
    (insertByKey key x l).Perm (x :: l) := by
  induction l with
  | nil => exact List.Perm.refl _
  | cons y ys ih =>
    rw [insertByKey]
    by_cases h : key y < key x
    · rw [if_pos h]
      exact (ih.cons y).trans (List.Perm.swap x y ys)
    · rw [if_neg h]

theorem sortByKey_perm [LinearOrder K] (key : α → K) (l : List α) :
    (sortByKey key l).Perm l := by
  induction l with
  | nil => exact List.Perm.refl _
  | cons x xs ih =>
    rw [sortByKey]
    exact (insertByKey_perm key x (sortByKey key xs)).trans (ih.cons x)

theorem mem_insertByKey [LinearOrder K] (key : α → K) (x z : α) (l : List α) :
    z ∈ insertByKey key x l ↔ z = x ∨ z ∈ l := by
  rw [(insertByKey_perm key x l).mem_iff, List.mem_cons]

theorem pairwise_insertByKey [LinearOrder K] (key : α → K) (x : α) (l : List α)
    (h : l.Pairwise (fun a b => key a ≤ key b)) :
    (insertByKey key x l).Pairwise (fun a b => key a ≤ key b) := by
  induction l with
  | nil => simp [insertByKey]
  | cons y ys ih =>
    rw [List.pairwise_cons] at h
    rw [insertByKey]
    by_cases hlt : key y < key x
    · rw [if_pos hlt, List.pairwise_cons]
      refine ⟨?_, ih h.2⟩
      intro z hz
      rcases (mem_insertByKey key x z ys).mp hz with rfl | hz
      · exact le_of_lt hlt
      · exact h.1 z hz
    · rw [if_neg hlt, List.pairwise_cons]
      refine ⟨?_, List.pairwise_cons.mpr h⟩
      intro z hz
      rcases List.mem_cons.mp hz with rfl | hz
      · exact le_of_not_lt hlt
      · exact le_trans (le_of_not_lt hlt) (h.1 z hz)

theorem sortByKey_pairwise [LinearOrder K] (key : α → K) (l : List α) :
    (sortByKey key l).Pairwise (fun a b => key a ≤ key b) := by
  induction l with
  | nil => simp [sortByKey]
  | cons x xs ih => exact pairwise_insertByKey key x (sortByKey key xs) ih

theorem filter_insertByKey_pos [LinearOrder K] (key : α → K) (x : α) (l : List α)
    (d : K) (p : α → Bool) (hp : ∀ a, p a = true ↔ key a = d) (hx : key x = d) :
    (insertByKey key x l).filter p = x :: l.filter p := by
  induction l with
  | nil => simp [insertByKey, (hp x).mpr hx]
  | cons y ys ih =>
    rw [insertByKey]
    by_cases hlt : key y < key x
    · have hy : p y = false := by
        rw [Bool.eq_false_iff, ne_eq, hp y]
        exact fun he => absurd (hx ▸ he ▸ hlt) (lt_irrefl _)
      rw [if_pos hlt, List.filter_cons, List.filter_cons]
      simp only [hy, Bool.false_eq_true, if_false]
      exact ih
    · rw [if_neg hlt, List.filter_cons]
      simp [(hp x).mpr hx]

theorem filter_insertByKey_neg [LinearOrder K] (key : α → K) (x : α) (l : List α)
    (d : K) (p : α → Bool) (hp : ∀ a, p a = true ↔ key a = d) (hx : key x ≠ d) :
    (insertByKey key x l).filter p = l.filter p := by
  have hx2 : p x = false := by
    rw [Bool.eq_false_iff, ne_eq, hp x]
    exact hx
  induction l with
  | nil => simp [insertByKey, hx2]
  | cons y ys ih =>
    rw [insertByKey]
    by_cases hlt : key y < key x
    · rw [if_pos hlt, List.filter_cons, List.filter_cons, ih]
    · rw [if_neg hlt, List.filter_cons]
      simp [hx2]

theorem sortByKey_filter [LinearOrder K] (key : α → K) (l : List α) (d : K)
    (p : α → Bool) (hp : ∀ a, p a = true ↔ key a = d) :
    (sortByKey key l).filter p = l.filter p := by
  induction l with
  | nil => simp [sortByKey]
  | cons x xs ih =>
    rw [sortByKey]
    by_cases hx : key x = d
    · rw [filter_insertByKey_pos key x _ d p hp hx, ih, List.filter_cons]
      simp [(hp x).mpr hx]
    · rw [filter_insertByKey_neg key x _ d p hp hx, ih, List.filter_cons]
      have hx2 : p x = false := by
        rw [Bool.eq_false_iff, ne_eq, hp x]
        exact hx
      simp [hx2]

theorem insertDescBy_perm [LinearOrder K] (key : α → K) (x : α) (l : List α) :
    (insertDescBy key x l).Perm (x :: l) := by
  induction l with
  | nil => exact List.Perm.refl _
  | cons y ys ih =>
    rw [insertDescBy]
    by_cases h : key x < key y
    · rw [if_pos h]
      exact (ih.cons y).trans (List.Perm.swap x y ys)
    · rw [if_neg h]

theorem sortDescBy_perm [LinearOrder K] (key : α → K) (l : List α) :
    (sortDescBy key l).Perm l := by
  induction l with
  | nil => exact List.Perm.refl _
  | cons x xs ih =>
    rw [sortDescBy]
    exact (insertDescBy_perm key x (sortDescBy key xs)).trans (ih.cons x)

theorem mem_insertDescBy [LinearOrder K] (key : α → K) (x z : α) (l : List α) :
    z ∈ insertDescBy key x l ↔ z = x ∨ z ∈ l := by
  rw [(insertDescBy_perm key x l).mem_iff, List.mem_cons]

theorem pairwise_insertDescBy [LinearOrder K] (key : α → K) (x : α) (l : List α)
    (h : l.Pairwise (fun a b => key b ≤ key a)) :
    (insertDescBy key x l).Pairwise (fun a b => key b ≤ key a) := by
  induction l with
  | nil => simp [insertDescBy]
  | cons y ys ih =>
    rw [List.pairwise_cons] at h
    rw [insertDescBy]
    by_cases hlt : key x < key y
    · rw [if_pos hlt, List.pairwise_cons]
      refine ⟨?_, ih h.2⟩
      intro z hz
      rcases (mem_insertDescBy key x z ys).mp hz with rfl | hz
      · exact le_of_lt hlt
      · exact h.1 z hz
    · rw [if_neg hlt, List.pairwise_cons]
      refine ⟨?_, List.pairwise_cons.mpr h⟩
      intro z hz
      rcases List.mem_cons.mp hz with rfl | hz
      · exact le_of_not_lt hlt
      · exact le_trans (h.1 z hz) (le_of_not_lt hlt)

theorem sortDescBy_pairwise [LinearOrder K] (key : α → K) (l : List α) :
    (sortDescBy key l).Pairwise (fun a b => key b ≤ key a) := by
  induction l with
  | nil => simp [sortDescBy]
  | cons x xs ih => exact pairwise_insertDescBy key x (sortDescBy key xs) ih

/-! ## Money lemmas: every reachable value is an exact number of cents -/

theorem isCent_add {a b : ℚ} (ha : isCent a) (hb : isCent b) : isCent (a + b) := by
  obtain ⟨k1, rfl⟩ := ha
  obtain ⟨k2, rfl⟩ := hb
  exact ⟨k1 + k2, by push_cast; ring⟩

theorem isCent_neg {a : ℚ} (ha : isCent a) : isCent (-a) := by
  obtain ⟨k, rfl⟩ := ha
  exact ⟨-k, by push_cast; ring⟩

theorem round2_isCent {q : ℚ} (h : isCent q) : round2 q = q := by
  obtain ⟨k, rfl⟩ := h
  rw [round2, div_mul_cancel₀ (k : ℚ) (by norm_num : (100 : ℚ) ≠ 0), round_intCast]

/-! ## Balance replay lemmas -/

theorem addAt_map_fst (l : List (String × ℚ)) (k : String) (v : ℚ) :
    (addAt l k v).map Prod.fst = l.map Prod.fst := by
  induction l with
  | nil => rfl
  | cons p rest ih =>
    by_cases h : p.1 = k <;> simp [addAt, h] <;> simpa [addAt] using ih

theorem addAt_of_not_mem (l : List (String × ℚ)) (k : String) (v : ℚ)
    (h : k ∉ l.map Prod.fst) : addAt l k v = l := by
  induction l with
  | nil => rfl
  | cons p rest ih =>
    rw [List.map_cons, List.mem_cons] at h
    push_neg at h
    have h1 : ¬ p.1 = k := fun he => h.1 he.symm
    simp only [addAt, List.map_cons, if_neg h1]
    have := ih h.2
    rw [addAt] at this
    simp [this]

theorem addAt_sum (l : List (String × ℚ)) (k : String) (v : ℚ)
    (hnd : (l.map Prod.fst).Nodup) (hk : k ∈ l.map Prod.fst) :
    sumVals (addAt l k v) = sumVals l + v := by
  induction l with
  | nil => cases hk
  | cons p rest ih =>
    rw [List.map_cons, List.nodup_cons] at hnd
    rw [List.map_cons, List.mem_cons] at hk
    by_cases h : p.1 = k
    · have hrest : addAt rest k v = rest := addAt_of_not_mem rest k v (h ▸ hnd.1)
      simp only [addAt, if_pos h, sumVals, List.map_cons, List.sum_cons]
      rw [addAt] at hrest
      rw [hrest]
      ring
    · rcases hk with hk | hk
      · exact absurd hk.symm h
      · simp only [addAt, if_neg h, sumVals, List.map_cons, List.sum_cons]
        have := ih hnd.2 hk
        rw [sumVals, sumVals] at this
        rw [addAt] at this
        rw [this]
        ring

theorem addAt_cons (p : String × ℚ) (rest : List (String × ℚ)) (k : String) (v : ℚ) :
    addAt (p :: rest) k v =
      (if p.1 = k then (p.1, p.2 + v) else p) :: addAt rest k v := rfl

theorem addAt_dlookup_ne (l : List (String × ℚ)) (k k1 : String) (v : ℚ)
    (h : k ≠ k1) : dlookup (addAt l k v) k1 = dlookup l k1 := by
  induction l with
  | nil => rfl
  | cons p rest ih =>
    obtain ⟨k0, v0⟩ := p
    have hstep : addAt ((k0, v0) :: rest) k v =
        (if k0 = k then (k0, v0 + v) else (k0, v0)) :: addAt rest k v := rfl
    rw [hstep]
    by_cases hk : k0 = k
    · have h1 : ¬ k0 = k1 := fun he => h (hk.symm.trans he)
      rw [if_pos hk]
      simp only [dlookup, if_neg h1]
      exact ih
    · rw [if_neg hk]
      by_cases hp : k0 = k1
      · simp only [dlookup, if_pos hp]
      · simp only [dlookup, if_neg hp]
        exact ih

theorem applyEntry_map_fst (byTitle : List (String × Account)) (bal : List (String × ℚ))
    (t : Transaction) : (applyEntry byTitle bal t).map Prod.fst = bal.map Prod.fst := by
  simp only [applyEntry]
  repeat' split
  all_goals simp [addAt_map_fst]

theorem foldl_applyEntry_map_fst (byTitle : List (String × Account))
    (txs : List Transaction) (bal : List (String × ℚ)) :
    (txs.foldl (applyEntry byTitle) bal).map Prod.fst = bal.map Prod.fst := by
  induction txs generalizing bal with
  | nil => rfl
  | cons t rest ih =>
    rw [List.foldl_cons, ih (applyEntry byTitle bal t), applyEntry_map_fst]

theorem lookup_byTitle_of_mem (A : List Account) (tt : String)
    (h : ∃ a ∈ A.filter retainedB, a.title = tt) :
    ∃ b, dlookup (accountMapByTitle A) tt = some b ∧ b ∈ A.filter retainedB ∧ b.title = tt := by
  obtain ⟨a, ha, hat⟩ := h
  obtain ⟨b, hb, hbmem, hbt⟩ := dlookup_dictOf_isSome Account.title (A.filter retainedB) a ha
  rw [hat] at hb
  exact ⟨b, by rw [accountMapByTitle]; exact hb, hbmem, hbt.trans hat⟩

theorem applyEntry_sum (A : List Account) (bal : List (String × ℚ)) (t : Transaction)
    (hnd : (bal.map Prod.fst).Nodup)
    (hkeys : ∀ a ∈ A.filter retainedB, a.uid ∈ bal.map Prod.fst)
    (hwf : wfEntry A t) :
    sumVals (applyEntry (accountMapByTitle A) bal t) = sumVals bal + entryDelta t := by
  rw [applyEntry, entryDelta]
  by_cases h1 : t.type = "Entrata"
  · rw [if_pos h1, if_pos h1]
    obtain ⟨b, hb, hbm, hbt⟩ := lookup_byTitle_of_mem A t.account (hwf.1 (Or.inl h1))
    have hkb : b.uid ∈ bal.map Prod.fst := hkeys b hbm
    simp only [hb]
    rw [if_pos ((containsKey_iff bal b.uid).mpr hkb)]
    exact addAt_sum bal b.uid t.value hnd hkb
  · rw [if_neg h1, if_neg h1]
    by_cases h2 : t.type = "Spesa"
    · rw [if_pos h2, if_pos h2]
      obtain ⟨b, hb, hbm, hbt⟩ := lookup_byTitle_of_mem A t.account (hwf.1 (Or.inr h2))
      have hkb : b.uid ∈ bal.map Prod.fst := hkeys b hbm
      simp only [hb]
      rw [if_pos ((containsKey_iff bal b.uid).mpr hkb)]
      rw [addAt_sum bal b.uid (-t.value) hnd hkb]
    · rw [if_neg h2, if_neg h2]
      by_cases h3 : t.type = "Giroconto"
      · rw [if_pos h3]
        obtain ⟨hf, ht⟩ := hwf.2 h3
        obtain ⟨bf, hbf, hbfm, hbft⟩ := lookup_byTitle_of_mem A t.from_account hf
        obtain ⟨bt, hbt2, hbtm, hbtt⟩ := lookup_byTitle_of_mem A t.to_account ht
        have hkf : bf.uid ∈ bal.map Prod.fst := hkeys bf hbfm
        simp only [hbf, hbt2]
        rw [if_pos ((containsKey_iff bal bf.uid).mpr hkf)]
        have hfst : (addAt bal bf.uid (-t.value)).map Prod.fst = bal.map Prod.fst :=
          addAt_map_fst bal bf.uid (-t.value)
        have hkt : bt.uid ∈ (addAt bal bf.uid (-t.value)).map Prod.fst := by
          rw [hfst]; exact hkeys bt hbtm
        rw [if_pos ((containsKey_iff _ bt.uid).mpr hkt)]
        rw [addAt_sum _ bt.uid t.value (by rw [hfst]; exact hnd) hkt]
        rw [addAt_sum bal bf.uid (-t.value) hnd hkf]
        ring
      · rw [if_neg h3]
        simp

theorem foldl_applyEntry_sum (A : List Account) (txs : List Transaction)
    (bal : List (String × ℚ))
    (hnd : (bal.map Prod.fst).Nodup)
    (hkeys : ∀ a ∈ A.filter retainedB, a.uid ∈ bal.map Prod.fst)
    (hwf : ∀ t ∈ txs, wfEntry A t) :
    sumVals (txs.foldl (applyEntry (accountMapByTitle A)) bal) =
      sumVals bal + (txs.map entryDelta).sum := by
  induction txs generalizing bal with
  | nil => simp
  | cons t rest ih =>
    rw [List.foldl_cons, List.map_cons, List.sum_cons]
    have hfst := applyEntry_map_fst (accountMapByTitle A) bal t
    rw [ih (applyEntry (accountMapByTitle A) bal t)
      (by rw [hfst]; exact hnd)
      (fun a ha => by rw [hfst]; exact hkeys a ha)
      (fun x hx => hwf x (List.mem_cons_of_mem t hx))]
    rw [applyEntry_sum A bal t hnd hkeys (hwf t (List.mem_cons_self t rest))]
    ring

theorem addAt_cent (l : List (String × ℚ)) (k : String) (v : ℚ)
    (hb : ∀ p ∈ l, isCent p.2) (hv : isCent v) :
    ∀ p ∈ addAt l k v, isCent p.2 := by
  intro p hp
  rw [addAt] at hp
  obtain ⟨q, hq, he⟩ := List.mem_map.mp hp
  by_cases h : q.1 = k
  · rw [if_pos h] at he
    rw [← he]
    exact isCent_add (hb q hq) hv
  · rw [if_neg h] at he
    rw [← he]
    exact hb q hq

theorem applyEntry_cent (byTitle : List (String × Account)) (bal : List (String × ℚ))
    (t : Transaction) (hb : ∀ p ∈ bal, isCent p.2) (hv : isCent t.value) :
    ∀ p ∈ applyEntry byTitle bal t, isCent p.2 := by
  have hneg : isCent (-t.value) := isCent_neg hv
  simp only [applyEntry]
  repeat' split
  all_goals first
    | exact hb
    | exact addAt_cent _ _ _ hb hv
    | exact addAt_cent _ _ _ hb hneg
    | exact addAt_cent _ _ _ (addAt_cent _ _ _ hb hneg) hv

theorem foldl_applyEntry_cent (byTitle : List (String × Account)) (txs : List Transaction)
    (bal : List (String × ℚ)) (hb : ∀ p ∈ bal, isCent p.2)
    (hv : ∀ t ∈ txs, isCent t.value) :
    ∀ p ∈ txs.foldl (applyEntry byTitle) bal, isCent p.2 := by
  induction txs generalizing bal with
  | nil => exact hb
  | cons t rest ih =>
    rw [List.foldl_cons]
    exact ih (applyEntry byTitle bal t)
      (applyEntry_cent byTitle bal t hb (hv t (List.mem_cons_self t rest)))
      (fun x hx => hv x (List.mem_cons_of_mem t hx))

theorem applyEntry_dlookup_untouched (byTitle : List (String × Account))
    (bal : List (String × ℚ)) (t : Transaction) (u : String)
    (hu : ∀ tt b, dlookup byTitle tt = some b → b.uid ≠ u) :
    dlookup (applyEntry byTitle bal t) u = dlookup bal u := by
  simp only [applyEntry]
  repeat' split
  all_goals first
    | rfl
    | exact addAt_dlookup_ne _ _ _ _ (hu _ _ (by assumption))
    | rw [addAt_dlookup_ne _ _ _ _ (hu _ _ (by assumption)),
          addAt_dlookup_ne _ _ _ _ (hu _ _ (by assumption))]

theorem foldl_applyEntry_dlookup_untouched (byTitle : List (String × Account))
    (txs : List Transaction) (bal : List (String × ℚ)) (u : String)
    (hu : ∀ tt b, dlookup byTitle tt = some b → b.uid ≠ u) :
    dlookup (txs.foldl (applyEntry byTitle) bal) u = dlookup bal u := by
  induction txs generalizing bal with
  | nil => rfl
  | cons t rest ih =>
    rw [List.foldl_cons, ih (applyEntry byTitle bal t),
      applyEntry_dlookup_untouched byTitle bal t u hu]

theorem sum_entryDelta (txs : List Transaction)
    (h : ∀ t ∈ txs, t.type = "Entrata" ∨ t.type = "Spesa" ∨ t.type = "Giroconto") :
    (txs.map entryDelta).sum =
      ((txs.filter (fun t => t.type == "Entrata")).map Transaction.value).sum -
      ((txs.filter (fun t => t.type == "Spesa")).map Transaction.value).sum := by
  induction txs with
  | nil => simp
  | cons t rest ih =>
    have ihr := ih (fun x hx => h x (List.mem_cons_of_mem t hx))
    rw [List.map_cons, List.sum_cons, List.filter_cons, List.filter_cons]
    rcases h t (List.mem_cons_self t rest) with ht | ht | ht
    · have e2 : (("Entrata" : String) == "Spesa") = false := by decide
      simp [ht, entryDelta, e2, ihr]
      ring
    · have e1 : (("Spesa" : String) == "Entrata") = false := by decide
      have e3 : ¬ ("Spesa" : String) = "Entrata" := by decide
      simp [ht, entryDelta, e1, e3, ihr]
      ring
    · have e1 : (("Giroconto" : String) == "Entrata") = false := by decide
      have e2 : (("Giroconto" : String) == "Spesa") = false := by decide
      have e3 : ¬ ("Giroconto" : String) = "Entrata" := by decide
      have e4 : ¬ ("Giroconto" : String) = "Spesa" := by decide
      simp [ht, entryDelta, e1, e2, e3, e4, ihr]

/-! ## Output formatting, manual fix and ETF lemmas -/

theorem initBalances_map_fst (A : List Account) :
    (initBalances A).map Prod.fst = (accountMapByUid A).map Prod.fst := by
  rw [initBalances, List.map_map]
  rfl

theorem formatOutput_sum (A : List Account) (bal : List (String × ℚ))
    (hcov : ∀ p ∈ bal, (dlookup (accountMapByUid A) p.1).isSome = true)
    (hc : ∀ p ∈ bal, isCent p.2) :
    ((formatOutput A bal).map Summary.balance).sum = sumVals bal := by
  induction bal with
  | nil => simp [formatOutput, sumVals]
  | cons p rest ih =>
    obtain ⟨a, ha⟩ := Option.isSome_iff_exists.mp (hcov p (List.mem_cons_self p rest))
    rw [formatOutput, List.filterMap_cons]
    simp only [ha, Option.map_some']
    rw [List.map_cons, List.sum_cons, round2_isCent (hc p (List.mem_cons_self p rest))]
    have ihr := ih (fun q hq => hcov q (List.mem_cons_of_mem p hq))
      (fun q hq => hc q (List.mem_cons_of_mem p hq))
    rw [formatOutput] at ihr
    rw [ihr]
    simp [sumVals]

theorem formatOutput_titles (A : List Account) (bal : List (String × ℚ)) :
    ∀ e ∈ formatOutput A bal, ∃ a ∈ A.filter retainedB, e.title = a.title := by
  intro e he
  rw [formatOutput] at he
  obtain ⟨p, hp, hpe⟩ := List.mem_filterMap.mp he
  cases ha : dlookup (accountMapByUid A) p.1 with
  | none => rw [ha] at hpe; cases hpe
  | some a =>
    rw [ha] at hpe
    simp only [Option.map_some', Option.some_inj] at hpe
    have hmem := dlookup_dictOf_some Account.uid (A.filter retainedB) p.1 a
      (by rw [accountMapByUid] at ha; exact ha)
    exact ⟨a, hmem.1, by rw [← hpe]⟩

theorem fixOne_title (e : Summary) : (fixOne e).title = e.title := rfl

theorem fixOne_id (e : Summary) (h1 : containsStr "Intesa" e.title = false)
    (h2 : e.title ≠ "Contanti") : fixOne e = e := by
  simp [fixOne, h1, h2]

theorem applyFix_id (out : List Summary)
    (h : ∀ e ∈ out, containsStr "Intesa" e.title = false ∧ e.title ≠ "Contanti") :
    applyFix out = out := by
  induction out with
  | nil => rfl
  | cons e rest ih =>
    have he := h e (List.mem_cons_self e rest)
    rw [applyFix, List.map_cons, fixOne_id e he.1 he.2]
    have ihr := ih (fun x hx => h x (List.mem_cons_of_mem e hx))
    rw [applyFix] at ihr
    rw [ihr]

theorem applyFix_titles (out : List Summary) :
    ∀ e ∈ applyFix out, ∃ e0 ∈ out, e.title = e0.title := by
  intro e he
  rw [applyFix] at he
  obtain ⟨e0, he0, heq⟩ := List.mem_map.mp he
  exact ⟨e0, he0, by rw [← heq, fixOne_title]⟩

theorem etfStep_id (A : List Account) (out : List Summary)
    (hA : hasEtfAccounts A = false)
    (hout : ∀ e ∈ out, containsStr "ETF" e.title = false) :
    etfStep A out = out := by
  rw [etfStep]
  rw [if_neg (by simp [hA])]
  exact List.filter_eq_self.mpr (fun e he => by simp [hout e he])

theorem sortDescBy_sum (key : α → K) [LinearOrder K] (f : α → ℚ) (l : List α) :
    ((sortDescBy key l).map f).sum = (l.map f).sum :=
  List.Perm.sum_eq (List.Perm.map f (sortDescBy_perm key l))

/-! ## Inversion lemmas for the event normalizer -/

theorem processTransaction_some (syncAcc syncCat : List (String × SyncLink))
    (accMap : List (String × Account)) (catMap : List (String × Category))
    (t : RawTransaction) (e : Transaction)
    (h : processTransaction syncAcc syncCat accMap catMap t = some e) :
    t.isRemoved = false ∧
    ∃ s acc, dlookup syncAcc t.uid = some s ∧ dlookup accMap s.otherUid = some acc ∧
      acc.ignoreInBalance = false ∧
      e = { type := if t.type = "Expense" then "Spesa" else "Entrata"
            date := t.date
            value := ((t.amountInDefaultCurrency.getD 0 : ℤ) : ℚ) / 100
            account := acc.title
            category := (((resolveCategory syncCat catMap t.uid).map Category.title)).getD
              "Regolazione saldo"
            from_account := ""
            to_account := "" } := by
  rw [processTransaction] at h
  by_cases hrem : t.isRemoved
  · rw [if_pos hrem] at h; cases h
  · rw [if_neg hrem] at h
    simp only [] at h
    by_cases hgir : containsStr "giroconto"
        (strLower ((((resolveCategory syncCat catMap t.uid).map Category.title)).getD "")) = true
    · rw [if_pos hgir] at h; cases h
    · rw [if_neg hgir] at h
      split at h
      · cases h
      · rename_i s hs
        split at h
        · cases h
        · rename_i acc hacc
          by_cases hig : acc.ignoreInBalance = true
          · rw [if_pos hig] at h; cases h
          · rw [if_neg hig] at h
            refine ⟨by simpa using hrem, s, acc, hs, hacc, by simpa using hig, ?_⟩
            exact (Option.some_inj.mp h).symm

theorem processTransfer_ok_some (syncFrom syncTo : List (String × SyncLink))
    (accMap : List (String × Account)) (tr : RawTransfer) (e : Transaction)
    (h : processTransfer syncFrom syncTo accMap tr = .ok (some e)) :
    tr.isRemoved = false ∧
    ∃ fs ts fa ta, dlookup syncFrom tr.uid = some fs ∧ dlookup syncTo tr.uid = some ts ∧
      dlookup accMap fs.otherUid = some fa ∧ dlookup accMap ts.otherUid = some ta ∧
      e = { type := "Giroconto"
            date := tr.date
            value := ((tr.fromAmount.getD 0 : ℤ) : ℚ) / 100
            account := ""
            category := ""
            from_account := fa.title
            to_account := ta.title } := by
  rw [processTransfer] at h
  by_cases hrem : tr.isRemoved = true
  · rw [if_pos hrem] at h; cases h
  · rw [if_neg hrem] at h
    split at h
    · rename_i fs ts hfs hts
      split at h
      · rename_i fa ta hfa hta
        refine ⟨by simpa using hrem, fs, ts, fa, ta, hfs, hts, hfa, hta, ?_⟩
        cases h
        rfl
      · cases h
    · cases h

theorem mem_processTransfers (syncFrom syncTo : List (String × SyncLink))
    (accMap : List (String × Account)) (R : List RawTransfer) (l : List Transaction)
    (h : processTransfers syncFrom syncTo accMap R = .ok l) (e : Transaction) (he : e ∈ l) :
    ∃ r ∈ R, processTransfer syncFrom syncTo accMap r = .ok (some e) := by
  induction R generalizing l with
  | nil =>
    rw [processTransfers] at h
    cases h
    cases he
  | cons r rest ih =>
    rw [processTransfers] at h
    cases hr : processTransfer syncFrom syncTo accMap r with
    | error msg => rw [hr] at h; cases h
    | ok o =>
      rw [hr] at h
      cases o with
      | none =>
        simp only [] at h
        obtain ⟨r2, hr2, hp⟩ := ih l h he
        exact ⟨r2, List.mem_cons_of_mem r hr2, hp⟩
      | some x =>
        simp only [] at h
        cases hrest : processTransfers syncFrom syncTo accMap rest with
        | error msg => rw [hrest] at h; cases h
        | ok l2 =>
          rw [hrest] at h
          cases h
          rcases List.mem_cons.mp he with rfl | he2
          · exact ⟨r, List.mem_cons_self r rest, hr⟩
          · obtain ⟨r2, hr2, hp⟩ := ih l2 hrest he2
            exact ⟨r2, List.mem_cons_of_mem r hr2, hp⟩

theorem unsorted_ok_elim (A : List Account) (T : List RawTransaction)
    (R : List RawTransfer) (S : List SyncLink) (C : List Category) (l : List Transaction)
    (h : unsortedEntries A T R S C = .ok l) :
    ∃ trE, processTransfers (syncMapFor "FromAccount" S) (syncMapFor "ToAccount" S)
        (dictOf Account.uid A) R = .ok trE ∧
      l = T.filterMap (processTransaction (syncMapFor "Account" S) (syncMapFor "Category" S)
        (dictOf Account.uid A) (dictOf Category.uid C)) ++ trE := by
  rw [unsortedEntries] at h
  cases htr : processTransfers (syncMapFor "FromAccount" S) (syncMapFor "ToAccount" S)
      (dictOf Account.uid A) R with
  | error msg => rw [htr] at h; cases h
  | ok trE =>
    rw [htr] at h
    cases h
    exact ⟨trE, rfl, rfl⟩

theorem build_ok_elim (A : List Account) (T : List RawTransaction)
    (R : List RawTransfer) (S : List SyncLink) (C : List Category) (txs : List Transaction)
    (h : build_transaction_list A T R S C = .ok txs) :
    ∃ l, unsortedEntries A T R S C = .ok l ∧ txs = sortByKey Transaction.date l := by
  rw [build_transaction_list] at h
  cases hu : unsortedEntries A T R S C with
  | error msg => rw [hu] at h; cases h
  | ok l =>
    rw [hu] at h
    cases h
    exact ⟨l, rfl, rfl⟩

theorem mem_build (A : List Account) (T : List RawTransaction)
    (R : List RawTransfer) (S : List SyncLink) (C : List Category) (txs : List Transaction)
    (h : build_transaction_list A T R S C = .ok txs) (e : Transaction) (he : e ∈ txs) :
    (∃ t ∈ T, processTransaction (syncMapFor "Account" S) (syncMapFor "Category" S)
      (dictOf Account.uid A) (dictOf Category.uid C) t = some e) ∨
    (∃ r ∈ R, processTransfer (syncMapFor "FromAccount" S) (syncMapFor "ToAccount" S)
      (dictOf Account.uid A) r = .ok (some e)) := by
  obtain ⟨l, hu, rfl⟩ := build_ok_elim A T R S C txs h
  obtain ⟨trE, htr, rfl⟩ := unsorted_ok_elim A T R S C l hu
  have hmem := (sortByKey_perm Transaction.date _).mem_iff.mp he
  rcases List.mem_append.mp hmem with hm | hm
  · obtain ⟨t, ht, hpt⟩ := List.mem_filterMap.mp hm
    exact Or.inl ⟨t, ht, hpt⟩
  · exact Or.inr (mem_processTransfers _ _ _ R trE htr e hm)

/-! ## The claims -/

/-- C1: a raw transaction that is not removed and whose resolved category
title contains giroconto in any letter case is skipped by the event
normalizer: no ledger entry is emitted for it (the transaction loop emits
exactly the entries that processTransaction returns). -/
theorem C1_giroconto_never_emitted (syncAcc syncCat : List (String × SyncLink))
    (accMap : List (String × Account)) (catMap : List (String × Category))
    (t : RawTransaction)
    (hrem : t.isRemoved = false)
    (hgir : containsStr "giroconto"
      (strLower (((resolveCategory syncCat catMap t.uid).map Category.title).getD "")) = true) :
    processTransaction syncAcc syncCat accMap catMap t = none := by
  simp [processTransaction, hrem, hgir]

/-- Witness for C1: a concrete transaction whose category is titled
GiRoConto interno yields no ledger entry. -/
theorem C1_witness :
    w1T.isRemoved = false ∧
    containsStr "giroconto" (strLower (((resolveCategory (syncMapFor "Category" [w1LinkC])
      (dictOf Category.uid [w1Cat]) w1T.uid).map Category.title).getD "")) = true ∧
    processTransaction (syncMapFor "Account" [w1LinkC]) (syncMapFor "Category" [w1LinkC])
      (dictOf Account.uid []) (dictOf Category.uid [w1Cat]) w1T = none :=
  ⟨by decide, by decide,
    C1_giroconto_never_emitted _ _ _ _ _ (by decide) (by decide)⟩

/-- C2 (amended): a live transfer MISSING either endpoint link is skipped
whole, with no error; but a transfer whose links are present and point at
an account uid outside the collection makes build_transaction_list raise
KeyError (see the counterexample). -/
theorem C2_missing_link_skips (syncFrom syncTo : List (String × SyncLink))
    (accMap : List (String × Account)) (tr : RawTransfer)
    (hrem : tr.isRemoved = false)
    (hmiss : dlookup syncFrom tr.uid = none ∨ dlookup syncTo tr.uid = none) :
    processTransfer syncFrom syncTo accMap tr = .ok none := by
  rw [processTransfer, if_neg (by simp [hrem])]
  rcases hmiss with hm | hm
  · simp only [hm]
  · cases hf : dlookup syncFrom tr.uid with
    | none => simp only [hf]
    | some fs => simp only [hf, hm]

/-- Witness for C2: a concrete transfer with no endpoint links produces
Except.ok none — zero entries and no exception. -/
theorem C2_witness :
    w2Tr.isRemoved = false ∧
    dlookup (syncMapFor "FromAccount" []) w2Tr.uid = none ∧
    processTransfer (syncMapFor "FromAccount" []) (syncMapFor "ToAccount" [])
      (dictOf Account.uid []) w2Tr = .ok none :=
  ⟨by decide, by decide,
    C2_missing_link_skips _ _ _ _ (by decide) (Or.inl (by decide))⟩

/-- Counterexample to C2 as stated: a transfer whose endpoint links exist
but name an account uid that is not in the Account collection does NOT
complete without raising — build_transaction_list raises a KeyError
(account_map is indexed directly on the transfer path). -/
theorem C2_counterexample :
    build_transaction_list [] [] [cexTr] [cexFrom, cexTo] [] = .error "KeyError" := rfl

/-- C5 (amended): a live transaction is skipped when its Account link is
absent, or the linked account uid is not in the collection, or the resolved
account is flagged ignore-in-balance.  (The resolved account's REMOVED flag
is NOT checked on this path — see the counterexample.) -/
theorem C5_unresolved_or_ignored_skipped (syncAcc syncCat : List (String × SyncLink))
    (accMap : List (String × Account)) (catMap : List (String × Category))
    (t : RawTransaction)
    (hrem : t.isRemoved = false)
    (hskip : dlookup syncAcc t.uid = none ∨
      (∃ s, dlookup syncAcc t.uid = some s ∧ dlookup accMap s.otherUid = none) ∨
      (∃ s acc, dlookup syncAcc t.uid = some s ∧ dlookup accMap s.otherUid = some acc ∧
        acc.ignoreInBalance = true)) :
    processTransaction syncAcc syncCat accMap catMap t = none := by
  rw [processTransaction, if_neg (by simp [hrem])]
  simp only []
  by_cases hgir : containsStr "giroconto"
      (strLower (((resolveCategory syncCat catMap t.uid).map Category.title).getD "")) = true
  · rw [if_pos hgir]
  · rw [if_neg hgir]
    rcases hskip with hm | ⟨s, hs, hm⟩ | ⟨s, acc, hs, hm, hig⟩
    · simp only [hm]
    · simp only [hs, hm]
    · simp only [hs, hm]
      rw [if_pos hig]

/-- Witness for C5 (amended): a transaction whose account has the
ignore-in-balance flag yields no entry. -/
theorem C5_witness :
    c5wT.isRemoved = false ∧ c5wAcc.ignoreInBalance = true ∧
    processTransaction (syncMapFor "Account" [c5wLink]) (syncMapFor "Category" [])
      (dictOf Account.uid [c5wAcc]) (dictOf Category.uid []) c5wT = none :=
  ⟨by decide, by decide,
    C5_unresolved_or_ignored_skipped _ _ _ _ _ (by decide)
      (Or.inr (Or.inr ⟨c5wLink, c5wAcc, by decide, by decide, by decide⟩))⟩

/-- Counterexample to C5 as stated: a live transaction whose resolved
account has the REMOVED flag set (ignore-in-balance clear) is NOT skipped —
the normalizer emits a ledger entry for it. -/
theorem C5_counterexample :
    c5Acc.isRemoved = true ∧ c5Acc.ignoreInBalance = false ∧
    dlookup (syncMapFor "Account" [c5Link]) c5T.uid = some c5Link ∧
    dlookup (dictOf Account.uid [c5Acc]) c5Link.otherUid = some c5Acc ∧
    processTransaction (syncMapFor "Account" [c5Link]) (syncMapFor "Category" [])
      (dictOf Account.uid [c5Acc]) (dictOf Category.uid []) c5T ≠ none := by
  refine ⟨by decide, by decide, by decide, by decide, ?_⟩
  decide

/-- C6 (amended): when several links share an owning uid and role, the dict
comprehension keeps the LAST one in collection order (later links
overwrite), so the resolver returns the last matching link, not the first. -/
theorem C6_last_link_wins (role : String) (links : List SyncLink) (k : String) :
    dlookup (syncMapFor role links) k =
      ((links.filter (fun s => s.otherType = some role)).filter
        (fun s => s.entityUid == k)).getLast? := by
  rw [syncMapFor, dlookup_dictOf]

/-- Counterexample to C6 as stated: with two Account links for the same
owning uid, resolution yields the SECOND link, not the first. -/
theorem C6_counterexample :
    c6l1.entityUid = c6l2.entityUid ∧ c6l1 ≠ c6l2 ∧
    dlookup (syncMapFor "Account" [c6l1, c6l2]) "e1" = some c6l2 ∧
    dlookup (syncMapFor "Account" [c6l1, c6l2]) "e1" ≠ some c6l1 := by decide

/-- C4: the published ledger is the stable ascending sort by date of the
transaction-derived entries (collection order) followed by the
transfer-derived entries (collection order): it is sorted by date, and for
every date the entries with that date keep exactly their pre-sort relative
order (transactions before transfers, each group in original order). -/
theorem C4_ledger_sorted_stable (A : List Account) (T : List RawTransaction)
    (R : List RawTransfer) (S : List SyncLink) (C : List Category) (l : List Transaction)
    (h : unsortedEntries A T R S C = .ok l) :
    build_transaction_list A T R S C = .ok (sortByKey Transaction.date l) ∧
    (sortByKey Transaction.date l).Pairwise (fun a b => a.date ≤ b.date) ∧
    ∀ d : String, (sortByKey Transaction.date l).filter (fun t => t.date == d) =
      l.filter (fun t => t.date == d) := by
  refine ⟨?_, sortByKey_pairwise Transaction.date l,
    fun d => sortByKey_filter Transaction.date l d _ (fun a => by simp)⟩
  rw [build_transaction_list, h]
  rfl

/-- Witness for C4 at a concrete one-transaction dataset. -/
theorem C4_witness :
    unsortedEntries [c3Acc] [c3T] [] [c3LinkA, c3LinkC] [c3Cat] = .ok [c3Entry] ∧
    (build_transaction_list [c3Acc] [c3T] [] [c3LinkA, c3LinkC] [c3Cat] =
        .ok (sortByKey Transaction.date [c3Entry]) ∧
      (sortByKey Transaction.date [c3Entry]).Pairwise (fun a b => a.date ≤ b.date) ∧
      ∀ d : String, (sortByKey Transaction.date [c3Entry]).filter (fun t => t.date == d) =
        [c3Entry].filter (fun t => t.date == d)) := by
  have h : unsortedEntries [c3Acc] [c3T] [] [c3LinkA, c3LinkC] [c3Cat] = .ok [c3Entry] := rfl
  exact ⟨h, C4_ledger_sorted_stable _ _ _ _ _ _ h⟩

/-- C7 (amended): when every stored amount in the dataset is non-negative,
every emitted ledger entry has a non-negative value; but the normalizer
never takes an absolute value, so a negative stored amount yields a
negative-valued entry (see the counterexample). -/
theorem C7_nonneg_for_nonneg_amounts (A : List Account) (T : List RawTransaction)
    (R : List RawTransfer) (S : List SyncLink) (C : List Category) (txs : List Transaction)
    (hT : ∀ t ∈ T, 0 ≤ t.amountInDefaultCurrency.getD 0)
    (hR : ∀ r ∈ R, 0 ≤ r.fromAmount.getD 0)
    (h : build_transaction_list A T R S C = .ok txs) :
    ∀ e ∈ txs, 0 ≤ e.value := by
  intro e he
  rcases mem_build A T R S C txs h e he with ⟨t, ht, hp⟩ | ⟨r, hr, hp⟩
  · obtain ⟨-, s, acc, -, -, -, rfl⟩ := processTransaction_some _ _ _ _ t e hp
    refine div_nonneg ?_ (by norm_num)
    exact_mod_cast hT t ht
  · obtain ⟨-, fs, ts, fa, ta, -, -, -, -, rfl⟩ := processTransfer_ok_some _ _ _ r e hp
    refine div_nonneg ?_ (by norm_num)
    exact_mod_cast hR r hr

/-- Witness for C7 (amended) at a concrete non-negative dataset. -/
theorem C7_witness :
    (∀ t ∈ [c3T], 0 ≤ t.amountInDefaultCurrency.getD 0) ∧
    (∀ e ∈ [c3Entry], 0 ≤ e.value) := by
  have h : build_transaction_list [c3Acc] [c3T] [] [c3LinkA, c3LinkC] [c3Cat] =
      .ok [c3Entry] := rfl
  exact ⟨by decide,
    C7_nonneg_for_nonneg_amounts [c3Acc] [c3T] [] [c3LinkA, c3LinkC] [c3Cat] [c3Entry]
      (by decide) (by decide) h⟩

/-- Counterexample to C7 as stated: a transaction stored with amount -500
is emitted as an income entry of value -5 — the output ledger contains a
NEGATIVE value, so non-negativity does not hold for every input dataset. -/
theorem C7_counterexample :
    build_transaction_list [c7Acc] [c7T] [] [c7Link] [] = .ok [c7Entry] ∧
    c7Entry.value < 0 := by
  refine ⟨rfl, ?_⟩
  norm_num [c7Entry]

/-- C9: after the ledger reduction the manual correction adds 219.50
(with rounding) to every row whose title contains Intesa, subtracts 219.50
from the row titled exactly Contanti, and leaves every other row unchanged;
on the spec's concrete dataset the pipeline outputs 1219.50 and 280.50. -/
theorem C9_manual_correction :
    calculate_account_balances [c9AccI, c9AccC] [] =
      [⟨"Intesa San Paolo", 1219.5⟩, ⟨"Contanti", 280.5⟩] ∧
    (∀ b : ℚ, ∀ t : String, containsStr "Intesa" t = true → t ≠ "Contanti" →
      fixOne ⟨t, b⟩ = ⟨t, round2 (b + 219.5)⟩) ∧
    (∀ b : ℚ, fixOne ⟨"Contanti", b⟩ = ⟨"Contanti", round2 (b - 219.5)⟩) ∧
    (∀ b : ℚ, ∀ t : String, containsStr "Intesa" t = false → t ≠ "Contanti" →
      fixOne ⟨t, b⟩ = ⟨t, b⟩) := by
  refine ⟨?_, ?_, ?_, ?_⟩
  · have h1 : containsStr "Intesa" "Intesa San Paolo" = true := by decide
    have h2 : containsStr "Intesa" "Contanti" = false := by decide
    have h3 : containsStr "ETF" "Intesa San Paolo" = false := by decide
    have h4 : containsStr "ETF" "Contanti" = false := by decide
    have h5 : ("Intesa San Paolo" : String) ≠ "Contanti" := by decide
    have h6 : ("a1" : String) ≠ "a2" := by decide
    norm_num [calculate_account_balances, etfStep, applyFix, formatOutput, replayBalances,
      initBalances, accountMapByUid, accountMapByTitle, retainedB, dictOf, dinsert, dlookup,
      fixOne, round2, hasEtfAccounts, sortDescBy, insertDescBy,
      h1, h2, h3, h4, h5, h6, c9AccI, c9AccC]
  · intro b t h1 h2
    simp [fixOne, h1, h2]
  · intro b
    have h1 : containsStr "Intesa" "Contanti" = false := by decide
    simp [fixOne, h1]
  · intro b t h1 h2
    simp [fixOne, h1, h2]

/-- C10: with distinct uids among retained accounts, the balances dict has
one entry per retained account (same-titled accounts each keep their own
row); the title dict resolves a duplicated title to the LAST retained
account carrying it; and a retained account that is not that winner keeps
exactly its seeded initial balance through the whole ledger replay — every
matching entry is applied only to the winner. -/
theorem C10_duplicate_title_last_account_wins (A : List Account) (txs : List Transaction)
    (a : Account)
    (hN : ((A.filter retainedB).map Account.uid).Nodup)
    (ha : a ∈ A.filter retainedB)
    (hloser : ((dlookup (accountMapByTitle A) a.title).all (fun b => b.uid != a.uid)) = true) :
    ((replayBalances A txs).map Prod.fst = (A.filter retainedB).map Account.uid) ∧
    (dlookup (accountMapByTitle A) a.title =
      ((A.filter retainedB).filter (fun b => b.title == a.title)).getLast?) ∧
    (dlookup (initBalances A) a.uid = some (((a.initialBalance.getD 0 : ℤ) : ℚ) / 100)) ∧
    (dlookup (replayBalances A txs) a.uid =
      some (((a.initialBalance.getD 0 : ℤ) : ℚ) / 100)) := by
  have hbyUid : dlookup (accountMapByUid A) a.uid = some a := by
    rw [accountMapByUid, dictOf_eq_map Account.uid _ hN]
    exact dlookup_map_pair Account.uid (fun x => x) (A.filter retainedB) hN a ha
  have hinit : dlookup (initBalances A) a.uid =
      some (((a.initialBalance.getD 0 : ℤ) : ℚ) / 100) := by
    rw [initBalances, dlookup_initBalances, hbyUid]
    rfl
  refine ⟨?_, ?_, hinit, ?_⟩
  · rw [replayBalances, foldl_applyEntry_map_fst, initBalances_map_fst, accountMapByUid,
      dictOf_eq_map Account.uid _ hN, List.map_map]
    rfl
  · rw [accountMapByTitle, dlookup_dictOf]
  · have hu : ∀ tt b, dlookup (accountMapByTitle A) tt = some b → b.uid ≠ a.uid := by
      intro tt b hb
      have hmem := dlookup_dictOf_some Account.title (A.filter retainedB) tt b
        (by rw [accountMapByTitle] at hb; exact hb)
      intro he
      have hba : b = a := List.inj_on_of_nodup_map hN hmem.1 ha he
      rw [hba] at hb
      have hat : a.title = tt := by rw [← hba]; exact hmem.2
      rw [hat, hb] at hloser
      simp at hloser
    rw [replayBalances, foldl_applyEntry_dlookup_untouched _ _ _ _ hu, hinit]

/-- C8: writing pre for the corrected per-account rows (after the manual
fix) and post for the published summary: when some account title contains
ETF, post holds exactly one ETF-marked row, the synthetic ⟨ETF, rounded sum
of the ETF rows of pre⟩; the non-ETF rows of post are exactly the non-ETF
rows of pre (as a multiset); when no account title contains ETF, post is a
permutation of pre with no ETF row and no synthetic entry; and post is
always sorted descending by balance. -/
theorem C8_etf_aggregation (A : List Account) (txs : List Transaction) :
    (hasEtfAccounts A = true →
      ((calculate_account_balances A txs).countP (fun e => containsStr "ETF" e.title) = 1 ∧
       ∀ e ∈ calculate_account_balances A txs, containsStr "ETF" e.title = true →
         e = ⟨"ETF", round2 ((((applyFix (formatOutput A (replayBalances A txs))).filter
           (fun s => containsStr "ETF" s.title)).map Summary.balance).sum)⟩)) ∧
    ((calculate_account_balances A txs).filter (fun e => !containsStr "ETF" e.title)).Perm
      ((applyFix (formatOutput A (replayBalances A txs))).filter
        (fun e => !containsStr "ETF" e.title)) ∧
    (hasEtfAccounts A = false →
      (calculate_account_balances A txs).Perm
        (applyFix (formatOutput A (replayBalances A txs))) ∧
      ∀ e ∈ calculate_account_balances A txs, containsStr "ETF" e.title = false) ∧
    (calculate_account_balances A txs).Pairwise (fun x y => y.balance ≤ x.balance) := by
  have hperm : (calculate_account_balances A txs).Perm
      (etfStep A (applyFix (formatOutput A (replayBalances A txs)))) := by
    rw [calculate_account_balances]
    exact sortDescBy_perm Summary.balance _
  have hpretitles : ∀ e ∈ applyFix (formatOutput A (replayBalances A txs)),
      ∃ a ∈ A, e.title = a.title := by
    intro e he
    obtain ⟨e0, he0, het⟩ := applyFix_titles _ e he
    obtain ⟨a, ham, hat⟩ := formatOutput_titles A _ e0 he0
    exact ⟨a, List.mem_of_mem_filter ham, het.trans hat⟩
  refine ⟨?_, ?_, ?_, ?_⟩
  · intro hA
    have hstep : etfStep A (applyFix (formatOutput A (replayBalances A txs))) =
        (applyFix (formatOutput A (replayBalances A txs))).filter
          (fun e => !containsStr "ETF" e.title) ++
        [⟨"ETF", round2 ((((applyFix (formatOutput A (replayBalances A txs))).filter
          (fun s => containsStr "ETF" s.title)).map Summary.balance).sum)⟩] := by
      rw [etfStep, if_pos hA]
    constructor
    · rw [List.Perm.countP_eq _ hperm, hstep, List.countP_append]
      have h0 : ((applyFix (formatOutput A (replayBalances A txs))).filter
          (fun e => !containsStr "ETF" e.title)).countP
            (fun e => containsStr "ETF" e.title) = 0 := by
        rw [List.countP_eq_zero]
        intro e he
        have := (List.mem_filter.mp he).2
        simp only [Bool.not_eq_true'] at this
        simp [this]
      rw [h0]
      have : containsStr "ETF" "ETF" = true := by decide
      simp [List.countP_cons, this]
    · intro e he hetf
      have he2 := hperm.mem_iff.mp he
      rw [hstep] at he2
      rcases List.mem_append.mp he2 with hm | hm
      · have := (List.mem_filter.mp hm).2
        rw [Bool.not_eq_true'] at this
        rw [this] at hetf
        cases hetf
      · simpa using hm
  · refine (List.Perm.filter _ hperm).trans ?_
    rw [etfStep]
    by_cases hA : hasEtfAccounts A = true
    · rw [if_pos hA, List.filter_append, List.filter_filter]
      have h1 : ([⟨"ETF", round2 ((((applyFix (formatOutput A (replayBalances A txs))).filter
          (fun s => containsStr "ETF" s.title)).map Summary.balance).sum)⟩] :
            List Summary).filter (fun e => !containsStr "ETF" e.title) = [] := by
        have : containsStr "ETF" "ETF" = true := by decide
        simp [List.filter_cons, this]
      rw [h1, List.append_nil]
      exact List.Perm.of_eq (by simp [Bool.and_self])
    · rw [if_neg hA, List.filter_filter]
      exact List.Perm.of_eq (by simp [Bool.and_self])
  · intro hA
    have hnoetf : ∀ e ∈ applyFix (formatOutput A (replayBalances A txs)),
        containsStr "ETF" e.title = false := by
      intro e he
      obtain ⟨a, haA, hat⟩ := hpretitles e he
      rw [hat]
      by_contra hc
      rw [Bool.not_eq_false] at hc
      rw [hasEtfAccounts] at hA
      rw [List.any_eq_false] at hA
      exact hA a haA hc
    have hstep : etfStep A (applyFix (formatOutput A (replayBalances A txs))) =
        applyFix (formatOutput A (replayBalances A txs)) := by
      rw [etfStep, if_neg (by simp [hA])]
      exact List.filter_eq_self.mpr (fun e he => by simp [hnoetf e he])
    rw [hstep] at hperm
    exact ⟨hperm, fun e he => hnoetf e (hperm.mem_iff.mp he)⟩
  · rw [calculate_account_balances]
    exact sortDescBy_pairwise Summary.balance _

/-- Witness for C8: a dataset with an ETF-titled account; the summary holds
exactly one ETF row. -/
theorem C8_witness :
    hasEtfAccounts [c8AccE, c8AccC] = true ∧
    ((calculate_account_balances [c8AccE, c8AccC] []).countP
        (fun e => containsStr "ETF" e.title) = 1 ∧
      ∀ e ∈ calculate_account_balances [c8AccE, c8AccC] [],
        containsStr "ETF" e.title = true →
        e = ⟨"ETF", round2 ((((applyFix (formatOutput [c8AccE, c8AccC]
          (replayBalances [c8AccE, c8AccC] []))).filter
            (fun s => containsStr "ETF" s.title)).map Summary.balance).sum)⟩) :=
  ⟨by decide, (C8_etf_aggregation [c8AccE, c8AccC] []).1 (by decide)⟩

/-- C3: conservation — with every account retained, no giroconto category,
no Intesa/Contanti/ETF marker title, and account uids unique (a data-model
invariant), the sum of the published balances equals the sum of the initial
balances plus the total of income entry values minus the total of expense
entry values; transfer entries cancel over the whole account set. -/
theorem C3_conservation (A : List Account) (T : List RawTransaction)
    (R : List RawTransfer) (S : List SyncLink) (C : List Category) (txs : List Transaction)
    (hret : ∀ a ∈ A, a.isRemoved = false ∧ a.ignoreInBalance = false)
    (hgir : ∀ c ∈ C, containsStr "giroconto" (strLower c.title) = false)
    (hmark : ∀ a ∈ A, containsStr "Intesa" a.title = false ∧ a.title ≠ "Contanti" ∧
      containsStr "ETF" a.title = false)
    (hN : (A.map Account.uid).Nodup)
    (h : build_transaction_list A T R S C = .ok txs) :
    ((calculate_account_balances A txs).map Summary.balance).sum =
      (A.map (fun a => ((a.initialBalance.getD 0 : ℤ) : ℚ) / 100)).sum +
      ((txs.filter (fun t => t.type == "Entrata")).map Transaction.value).sum -
      ((txs.filter (fun t => t.type == "Spesa")).map Transaction.value).sum := by
  have hfilter : A.filter retainedB = A :=
    List.filter_eq_self.mpr (fun a ha => by simp [retainedB, (hret a ha).1, (hret a ha).2])
  have hall : ∀ e ∈ txs, wfEntry A e ∧
      (e.type = "Entrata" ∨ e.type = "Spesa" ∨ e.type = "Giroconto") ∧ isCent e.value := by
    intro e he
    rcases mem_build A T R S C txs h e he with ⟨t, ht, hp⟩ | ⟨r, hr, hp⟩
    · obtain ⟨-, s, acc, hs, hacc, -, rfl⟩ := processTransaction_some _ _ _ _ t e hp
      have haccA : acc ∈ A := (dlookup_dictOf_some Account.uid A s.otherUid acc hacc).1
      have haccR : acc ∈ A.filter retainedB := by rw [hfilter]; exact haccA
      refine ⟨⟨fun _ => ⟨acc, haccR, rfl⟩, fun hgiro => ?_⟩, ?_, ?_⟩
      · exfalso
        revert hgiro
        show (if t.type = "Expense" then "Spesa" else "Entrata") = "Giroconto" → False
        split_ifs <;> decide
      · show (if t.type = "Expense" then "Spesa" else "Entrata") = "Entrata" ∨ _ ∨ _
        by_cases hty : t.type = "Expense"
        · right; left; simp [hty]
        · left; simp [hty]
      · exact ⟨t.amountInDefaultCurrency.getD 0, rfl⟩
    · obtain ⟨-, fs, ts, fa, ta, -, -, hfa, hta, rfl⟩ := processTransfer_ok_some _ _ _ r e hp
      have hfaA : fa ∈ A := (dlookup_dictOf_some Account.uid A fs.otherUid fa hfa).1
      have htaA : ta ∈ A := (dlookup_dictOf_some Account.uid A ts.otherUid ta hta).1
      refine ⟨⟨fun hty => ?_, fun _ => ?_⟩, Or.inr (Or.inr rfl),
        ⟨r.fromAmount.getD 0, rfl⟩⟩
      · rcases hty with hty | hty
        · exact absurd hty (by show ¬ ("Giroconto" : String) = "Entrata"; decide)
        · exact absurd hty (by show ¬ ("Giroconto" : String) = "Spesa"; decide)
      · exact ⟨⟨fa, by rw [hfilter]; exact hfaA, rfl⟩, ⟨ta, by rw [hfilter]; exact htaA, rfl⟩⟩
  have hkeys0 : (initBalances A).map Prod.fst = A.map Account.uid := by
    rw [initBalances_map_fst, accountMapByUid, hfilter, dictOf_eq_map Account.uid A hN,
      List.map_map]
    rfl
  have hnd0 : ((initBalances A).map Prod.fst).Nodup := by rw [hkeys0]; exact hN
  have hkeys : ∀ a ∈ A.filter retainedB, a.uid ∈ (initBalances A).map Prod.fst := by
    intro a ha
    rw [hkeys0]
    exact List.mem_map_of_mem Account.uid (by rw [hfilter] at ha; exact ha)
  have hsum := foldl_applyEntry_sum A txs (initBalances A) hnd0 hkeys
    (fun e he => (hall e he).1)
  have hdelta := sum_entryDelta txs (fun e he => (hall e he).2.1)
  have hsuminit : sumVals (initBalances A) =
      (A.map (fun a => ((a.initialBalance.getD 0 : ℤ) : ℚ) / 100)).sum := by
    rw [sumVals, initBalances, accountMapByUid, hfilter, dictOf_eq_map Account.uid A hN,
      List.map_map, List.map_map]
    rfl
  have hkeysUid : (accountMapByUid A).map Prod.fst = A.map Account.uid := by
    rw [accountMapByUid, hfilter, dictOf_eq_map Account.uid A hN, List.map_map]
    rfl
  have hreplk : (replayBalances A txs).map Prod.fst = A.map Account.uid := by
    rw [replayBalances, foldl_applyEntry_map_fst, hkeys0]
  have hcov : ∀ p ∈ replayBalances A txs, (dlookup (accountMapByUid A) p.1).isSome = true := by
    intro p hp
    rw [dlookup_isSome_iff, hkeysUid, ← hreplk]
    exact List.mem_map_of_mem Prod.fst hp
  have hcent0 : ∀ p ∈ initBalances A, isCent p.2 := by
    intro p hp
    rw [initBalances] at hp
    obtain ⟨q, hq, he⟩ := List.mem_map.mp hp
    rw [← he]
    exact ⟨q.2.initialBalance.getD 0, rfl⟩
  have hcentR : ∀ p ∈ replayBalances A txs, isCent p.2 := by
    rw [replayBalances]
    exact foldl_applyEntry_cent _ txs _ hcent0 (fun e he => (hall e he).2.2)
  have hfix : applyFix (formatOutput A (replayBalances A txs)) =
      formatOutput A (replayBalances A txs) := by
    apply applyFix_id
    intro e he
    obtain ⟨a, ham, hat⟩ := formatOutput_titles A _ e he
    have haA : a ∈ A := List.mem_of_mem_filter ham
    rw [hat]
    exact ⟨(hmark a haA).1, (hmark a haA).2.1⟩
  have hetfA : hasEtfAccounts A = false := by
    rw [hasEtfAccounts, List.any_eq_false]
    intro a haA
    simp [(hmark a haA).2.2]
  have hetf : etfStep A (formatOutput A (replayBalances A txs)) =
      formatOutput A (replayBalances A txs) := by
    apply etfStep_id A _ hetfA
    intro e he
    obtain ⟨a, ham, hat⟩ := formatOutput_titles A _ e he
    rw [hat]
    exact (hmark a (List.mem_of_mem_filter ham)).2.2
  calc ((calculate_account_balances A txs).map Summary.balance).sum
      = ((etfStep A (applyFix (formatOutput A (replayBalances A txs)))).map
          Summary.balance).sum := by
        rw [calculate_account_balances]
        exact sortDescBy_sum Summary.balance Summary.balance _
    _ = ((formatOutput A (replayBalances A txs)).map Summary.balance).sum := by
        rw [hfix, hetf]
    _ = sumVals (replayBalances A txs) := formatOutput_sum A _ hcov hcentR
    _ = sumVals (initBalances A) + (txs.map entryDelta).sum := by
        rw [replayBalances]
        exact hsum
    _ = (A.map (fun a => ((a.initialBalance.getD 0 : ℤ) : ℚ) / 100)).sum +
        ((txs.filter (fun t => t.type == "Entrata")).map Transaction.value).sum -
        ((txs.filter (fun t => t.type == "Spesa")).map Transaction.value).sum := by
        rw [hsuminit, hdelta]
        ring

/-- Witness for C3 at a concrete one-account, one-income dataset:
100.00 initial + 50.00 income. -/
theorem C3_witness :
    (∀ a ∈ [c3Acc], a.isRemoved = false ∧ a.ignoreInBalance = false) ∧
    (([c3Acc].map Account.uid).Nodup) ∧
    ((calculate_account_balances [c3Acc] [c3Entry]).map Summary.balance).sum =
      ([c3Acc].map (fun a => ((a.initialBalance.getD 0 : ℤ) : ℚ) / 100)).sum +
      (([c3Entry].filter (fun t => t.type == "Entrata")).map Transaction.value).sum -
      (([c3Entry].filter (fun t => t.type == "Spesa")).map Transaction.value).sum := by
  have h : build_transaction_list [c3Acc] [c3T] [] [c3LinkA, c3LinkC] [c3Cat] =
      .ok [c3Entry] := rfl
  exact ⟨by decide, by decide,
    C3_conservation [c3Acc] [c3T] [] [c3LinkA, c3LinkC] [c3Cat] [c3Entry]
      (by decide) (by decide) (by decide) (by decide) h⟩

/-- Witness for C10: two retained accounts both titled Conto; an income on
that title leaves the first account's balance at its seeded 10.00. -/
theorem C10_witness :
    ((([c10Acc1, c10Acc2].filter retainedB).map Account.uid).Nodup) ∧
    (c10Acc1 ∈ [c10Acc1, c10Acc2].filter retainedB) ∧
    (((dlookup (accountMapByTitle [c10Acc1, c10Acc2]) c10Acc1.title).all
      (fun b => b.uid != c10Acc1.uid)) = true) ∧
    (dlookup (replayBalances [c10Acc1, c10Acc2] [c10T]) c10Acc1.uid =
      some (((c10Acc1.initialBalance.getD 0 : ℤ) : ℚ) / 100)) :=
  ⟨by decide, by decide, by decide,
    (C10_duplicate_title_last_account_wins [c10Acc1, c10Acc2] [c10T] c10Acc1
      (by decide) (by decide) (by decide)).2.2.2⟩

end AnalyzeExpenses
